import Mathlib

/-!
# Verification of the hub core specification

A shallow embedding of the hub's merkle trie over sync-ids and of the
signer store (CRDT merge, identity-event ingestion, revocation, pruning),
together with proofs of the testable properties stated in the
specification.

The repository sources available here contain the unit tests, the
flatbuffer schemas and the `IdRegistryEventModel` helper, but not the
`MerkleTrie`, `SignerStore` or RPC server implementations themselves.
The definitions below are therefore modelled from the specification
(each such definition says so in its doc comment), with the in-repo unit
tests used as the authority wherever the specification's sentences
disagree with each other.

Hashes are modelled symbolically: `blake3` applied to a sync-id and
`blake3` applied to a concatenation of 16-byte child digests are the two
constructors of the free `Digest` algebra, which encodes exactly the
collision-freeness assumed of the real hash.
-/

set_option maxHeartbeats 1000000

/-- A sync-id digit: the trie is 16-ary over hex digits 0..f. -/
abbrev Digit := Fin 16

/-- A sync-id: the 10-digit decimal farcaster timestamp of the message
followed by the digits of the message's tsHash. -/
abbrev SyncId := List Digit

/-- Symbolic 16-byte blake3 digests: `leafD id` stands for
`blake3(sync-id)` and `nodeD hs` stands for `blake3(h₁ ‖ … ‖ hₙ)` over
16-byte child digests.  Constructor injectivity models collision
freeness of the real hash. -/
inductive Digest where
  | leafD (id : SyncId) : Digest
  | nodeD (hs : List Digest) : Digest

/-- The fixed empty-hash constant `blake3("", 16)`: the digest of an
empty concatenation. -/
def emptyHashD : Digest := .nodeD []

mutual
def decEqDigest : (a b : Digest) → Decidable (a = b)
  | .leafD x, .leafD y =>
      match List.hasDecEq x y with
      | isTrue h => isTrue (by rw [h])
      | isFalse h => isFalse (by simp [h])
  | .leafD _, .nodeD _ => isFalse (by simp)
  | .nodeD _, .leafD _ => isFalse (by simp)
  | .nodeD xs, .nodeD ys =>
      match decEqDigestList xs ys with
      | isTrue h => isTrue (by rw [h])
      | isFalse h => isFalse (by simp [h])

def decEqDigestList : (xs ys : List Digest) → Decidable (xs = ys)
  | [], [] => isTrue rfl
  | [], _ :: _ => isFalse (by simp)
  | _ :: _, [] => isFalse (by simp)
  | x :: xs, y :: ys =>
      match decEqDigest x y, decEqDigestList xs ys with
      | isTrue h1, isTrue h2 => isTrue (by rw [h1, h2])
      | isFalse h1, _ => isFalse (by simp [h1])
      | _, isFalse h2 => isFalse (by simp [h2])
end

instance : DecidableEq Digest := decEqDigest

/-- Modelled from the spec: a merkle-trie node (`MerkleTrie`/`TrieNode`
are absent from the sources).  Each node stores an optional `value`
(the full sync-id, present exactly at leaves) and a digit-keyed map of
children, kept as an association list in ascending digit order.  Leaves
are kept at full sync-id depth; this preserves every relational
property of the specification's radix layout. -/
inductive Trie where
  | mk (value : Option SyncId) (children : List (Digit × Trie)) : Trie

/-- The leaf value stored at a node (absent for non-leaf nodes). -/
def Trie.value : Trie → Option SyncId
  | .mk v _ => v

/-- The digit-indexed children of a node. -/
def Trie.children : Trie → List (Digit × Trie)
  | .mk _ cs => cs

/-- The empty trie node: no value, no children. -/
def emptyTrie : Trie := .mk none []

/-- Look a digit up in a children map. -/
def getChild : List (Digit × Trie) → Digit → Option Trie
  | [], _ => none
  | (k, c) :: rest, d => if k = d then some c else getChild rest d

/-- Write a digit binding into a children map, keeping ascending digit
order. -/
def setChild : List (Digit × Trie) → Digit → Trie → List (Digit × Trie)
  | [], d, x => [(d, x)]
  | (k, c) :: rest, d, x =>
      if d < k then (d, x) :: (k, c) :: rest
      else if d = k then (d, x) :: rest
      else (k, c) :: setChild rest d x

/-- Drop a digit binding from a children map. -/
def removeChild : List (Digit × Trie) → Digit → List (Digit × Trie)
  | [], _ => []
  | (k, c) :: rest, d => if k = d then rest else (k, c) :: removeChild rest d

mutual
/-- Modelled from the spec: the cached per-node digest.  A leaf hashes
its sync-id; an internal node hashes the concatenation of its
children's digests in ascending digit order. -/
def nodeHash : Trie → Digest
  | .mk (some v) _ => .leafD v
  | .mk none cs => .nodeD (childHashes cs)

def childHashes : List (Digit × Trie) → List Digest
  | [] => []
  | (_, c) :: rest => nodeHash c :: childHashes rest
end

mutual
/-- Modelled from the spec: the aggregated message count of a subtree,
the number of leaves below the node. -/
def numMessages : Trie → Nat
  | .mk v cs => (if v.isSome then 1 else 0) + childCount cs

def childCount : List (Digit × Trie) → Nat
  | [] => 0
  | (_, c) :: rest => numMessages c + childCount rest
end

/-- Modelled from the spec: `insert`, descending by the digits of the
sync-id and materialising missing nodes; the leaf at the end of the
walk stores the full sync-id. -/
def insertAt : Trie → List Digit → SyncId → Trie
  | .mk _ cs, [], id => .mk (some id) cs
  | .mk v cs, d :: ds, id =>
      .mk v (setChild cs d (insertAt ((getChild cs d).getD emptyTrie) ds id))

/-- The value found at the end of a digit walk, `none` when the walk
leaves the trie or ends at a non-leaf node. -/
def lookupVal : Trie → List Digit → Option SyncId
  | .mk v _, [] => v
  | .mk _ cs, d :: ds =>
      match getChild cs d with
      | none => none
      | some c => lookupVal c ds

/-- Modelled from the spec: `delete`, removing the leaf at the end of
the digit walk and collapsing branches left without any leaf. -/
def deleteAt : Trie → List Digit → Trie
  | .mk _ cs, [] => .mk none cs
  | .mk v cs, d :: ds =>
      match getChild cs d with
      | none => .mk v cs
      | some c =>
          if numMessages (deleteAt c ds) = 0 then .mk v (removeChild cs d)
          else .mk v (setChild cs d (deleteAt c ds))

/-- The node reached by walking a digit prefix from a node. -/
def nodeAt : Trie → List Digit → Option Trie
  | t, [] => some t
  | .mk _ cs, d :: ds =>
      match getChild cs d with
      | none => none
      | some c => nodeAt c ds

/-- Modelled from the spec: the trie handle.  `root` is the root node;
`touched` records whether any successful insert or delete has updated
the cached root hash yet (a fresh trie reports the empty string as its
root hash, modelled as `none`). -/
structure MerkleTrie where
  root : Trie
  touched : Bool

/-- A freshly constructed, empty merkle trie. -/
def MerkleTrie.empty : MerkleTrie := ⟨emptyTrie, false⟩

/-- Whether a sync-id is present as a leaf. -/
def MerkleTrie.existsId (t : MerkleTrie) (id : SyncId) : Bool :=
  lookupVal t.root id = some id

/-- Modelled from the spec: `insert(id)`; re-inserting an existing id
is a no-op and does not update the cached hashes. -/
def MerkleTrie.insert (t : MerkleTrie) (id : SyncId) : MerkleTrie :=
  if t.existsId id then t else ⟨insertAt t.root id id, true⟩

/-- Modelled from the spec: `delete(id)`; deleting an absent id is a
no-op and does not update the cached hashes. -/
def MerkleTrie.delete (t : MerkleTrie) (id : SyncId) : MerkleTrie :=
  if t.existsId id then ⟨deleteAt t.root id, true⟩ else t

/-- Modelled from the spec: the root hash summarising the replica;
`none` models the empty string reported before any update has computed
a hash. -/
def MerkleTrie.rootHash (t : MerkleTrie) : Option Digest :=
  if t.touched then some (nodeHash t.root) else none

/-- The total number of leaves in the trie. -/
def MerkleTrie.items (t : MerkleTrie) : Nat := numMessages t.root

/-- Build a trie by inserting a list of sync-ids in order into a fresh
trie. -/
def buildTrie (l : List SyncId) : MerkleTrie :=
  l.foldl MerkleTrie.insert MerkleTrie.empty

/-! ## Children-map lemmas -/

theorem getChild_setChild_same (cs : List (Digit × Trie)) (d : Digit) (x : Trie) :
    getChild (setChild cs d x) d = some x := by
  induction cs with
  | nil => simp [setChild, getChild]
  | cons kc rest ih =>
      obtain ⟨k, c⟩ := kc
      by_cases h1 : d < k
      · simp [setChild, getChild, h1]
      · by_cases h2 : d = k
        · simp [setChild, getChild, h1, h2]
        · have hk : ¬ k = d := fun h => h2 h.symm
          simp [setChild, getChild, h1, h2, hk, ih]

theorem getChild_setChild_ne (cs : List (Digit × Trie)) (d e : Digit) (x : Trie)
    (h : e ≠ d) : getChild (setChild cs d x) e = getChild cs e := by
  have hde : ¬ d = e := fun hh => h hh.symm
  induction cs with
  | nil => simp [setChild, getChild, hde]
  | cons kc rest ih =>
      obtain ⟨k, c⟩ := kc
      by_cases h1 : d < k
      · simp [setChild, getChild, h1, hde]
      · by_cases h2 : d = k
        · subst h2
          simp [setChild, getChild, h1, hde]
        · simp [setChild, getChild, h1, h2, ih]

theorem setChild_setChild_same (cs : List (Digit × Trie)) (d : Digit) (x y : Trie) :
    setChild (setChild cs d x) d y = setChild cs d y := by
  induction cs with
  | nil => simp [setChild]
  | cons kc rest ih =>
      obtain ⟨k, c⟩ := kc
      by_cases h1 : d < k
      · simp [setChild, h1, lt_irrefl]
      · by_cases h2 : d = k
        · simp [setChild, h1, h2, lt_irrefl]
        · simp [setChild, h1, h2, ih]

theorem setChild_comm (cs : List (Digit × Trie)) (d e : Digit) (x y : Trie)
    (h : d ≠ e) : setChild (setChild cs d x) e y = setChild (setChild cs e y) d x := by
  induction cs with
  | nil =>
      rcases lt_trichotomy d e with hde | hde | hde
      · have h1 : ¬ e < d := lt_asymm hde
        have h2 : ¬ e = d := ne_of_gt hde
        simp [setChild, hde, h1, h2]
      · exact absurd hde h
      · have h1 : ¬ d < e := lt_asymm hde
        have h2 : ¬ d = e := ne_of_gt hde
        simp [setChild, hde, h1, h2]
  | cons kc rest ih =>
      obtain ⟨k, c⟩ := kc
      rcases lt_trichotomy d k with hdk | hdk | hdk
      · rcases lt_trichotomy e k with hek | hek | hek
        · rcases lt_trichotomy d e with hde | hde | hde
          · have n1 : ¬ e < d := lt_asymm hde
            have n2 : ¬ e = d := ne_of_gt hde
            simp [setChild, hdk, hek, hde, n1, n2]
          · exact absurd hde h
          · have n1 : ¬ d < e := lt_asymm hde
            have n2 : ¬ d = e := ne_of_gt hde
            simp [setChild, hdk, hek, hde, n1, n2]
        · subst hek
          have n1 : ¬ e < d := lt_asymm hdk
          have n2 : ¬ e = d := ne_of_gt hdk
          have n3 : ¬ e < e := lt_irrefl e
          simp [setChild, hdk, n1, n2, n3]
        · have hde : d < e := lt_trans hdk hek
          have n1 : ¬ e < d := lt_asymm hde
          have n2 : ¬ e = d := ne_of_gt hde
          have n3 : ¬ e < k := lt_asymm hek
          have n4 : ¬ e = k := ne_of_gt hek
          simp [setChild, hdk, hde, n1, n2, n3, n4]
      · subst hdk
        rcases lt_trichotomy e d with hed | hed | hed
        · have n1 : ¬ d < e := lt_asymm hed
          have n2 : ¬ d = e := h
          simp [setChild, hed, n1, n2, lt_irrefl]
        · exact absurd hed.symm h
        · have n1 : ¬ e < d := lt_asymm hed
          have n2 : ¬ e = d := ne_of_gt hed
          simp [setChild, hed, n1, n2, lt_irrefl]
      · rcases lt_trichotomy e k with hek | hek | hek
        · have hed : e < d := lt_trans hek hdk
          have n1 : ¬ d < e := lt_asymm hed
          have n2 : ¬ d = e := ne_of_gt hed
          have n3 : ¬ d < k := lt_asymm hdk
          have n4 : ¬ d = k := ne_of_gt hdk
          simp [setChild, hek, hed, n1, n2, n3, n4]
        · subst hek
          have n1 : ¬ d < e := lt_asymm hdk
          have n2 : ¬ d = e := ne_of_gt hdk
          simp [setChild, hdk, n1, n2, lt_irrefl]
        · have n1 : ¬ d < k := lt_asymm hdk
          have n2 : ¬ d = k := ne_of_gt hdk
          have n3 : ¬ e < k := lt_asymm hek
          have n4 : ¬ e = k := ne_of_gt hek
          simp [setChild, n1, n2, n3, n4, ih]

/-! ## Insert and lookup lemmas -/

theorem insertAt_comm (as : List Digit) : ∀ (bs : List Digit) (a b : SyncId) (t : Trie),
    as ≠ bs → insertAt (insertAt t as a) bs b = insertAt (insertAt t bs b) as a := by
  induction as with
  | nil =>
      intro bs a b t hne
      cases bs with
      | nil => exact absurd rfl hne
      | cons e es =>
          obtain ⟨v, cs⟩ := t
          simp [insertAt]
  | cons d ds ih =>
      intro bs a b t hne
      cases bs with
      | nil =>
          obtain ⟨v, cs⟩ := t
          simp [insertAt]
      | cons e es =>
          obtain ⟨v, cs⟩ := t
          by_cases hde : d = e
          · subst hde
            have hds : ds ≠ es := by
              intro hh
              exact hne (by rw [hh])
            simp only [insertAt, getChild_setChild_same, Option.getD_some,
              setChild_setChild_same]
            rw [ih es a b _ hds]
          · have hed : e ≠ d := fun hh => hde hh.symm
            simp only [insertAt, getChild_setChild_ne _ _ _ _ hed,
              getChild_setChild_ne _ _ _ _ hde]
            rw [setChild_comm _ _ _ _ _ hde]

theorem lookupVal_insertAt_self (ds : List Digit) : ∀ (t : Trie) (id : SyncId),
    lookupVal (insertAt t ds id) ds = some id := by
  induction ds with
  | nil => intro t id; obtain ⟨v, cs⟩ := t; simp [insertAt, lookupVal]
  | cons d ds ih =>
      intro t id
      obtain ⟨v, cs⟩ := t
      simp [insertAt, lookupVal, getChild_setChild_same, ih]

theorem lookupVal_insertAt_ne (as : List Digit) : ∀ (bs : List Digit) (b : SyncId) (t : Trie),
    as ≠ bs → lookupVal (insertAt t bs b) as = lookupVal t as := by
  induction as with
  | nil =>
      intro bs b t hne
      cases bs with
      | nil => exact absurd rfl hne
      | cons e es =>
          obtain ⟨v, cs⟩ := t
          simp [insertAt, lookupVal]
  | cons d ds ih =>
      intro bs b t hne
      cases bs with
      | nil =>
          obtain ⟨v, cs⟩ := t
          simp [insertAt, lookupVal]
      | cons e es =>
          obtain ⟨v, cs⟩ := t
          by_cases hde : d = e
          · subst hde
            have hds : ds ≠ es := by
              intro hh
              exact hne (by rw [hh])
            simp only [insertAt, lookupVal, getChild_setChild_same]
            rw [ih es b _ hds]
            cases hgc : getChild cs d with
            | none =>
                simp [emptyTrie, lookupVal]
                cases ds <;> simp [lookupVal, getChild]
            | some c => simp
          · have hed : ¬ d = e := hde
            simp only [insertAt, lookupVal,
              getChild_setChild_ne _ _ _ _ hed]

/-! ## Wrapper-level commutativity -/

theorem existsId_iff (t : MerkleTrie) (id : SyncId) :
    t.existsId id = true ↔ lookupVal t.root id = some id := by
  simp [MerkleTrie.existsId]

theorem insert_pos (t : MerkleTrie) (id : SyncId) (h : t.existsId id = true) :
    t.insert id = t := by
  simp [MerkleTrie.insert, h]

theorem insert_neg (t : MerkleTrie) (id : SyncId) (h : t.existsId id = false) :
    t.insert id = ⟨insertAt t.root id id, true⟩ := by
  simp [MerkleTrie.insert, h]

theorem existsId_insert_self (t : MerkleTrie) (id : SyncId) :
    (t.insert id).existsId id = true := by
  by_cases h : t.existsId id = true
  · rw [insert_pos t id h]; exact h
  · rw [insert_neg t id (by simpa using h)]
    rw [existsId_iff]
    exact lookupVal_insertAt_self id t.root id

theorem existsId_insert_mono (t : MerkleTrie) (a b : SyncId) (h : t.existsId a = true) :
    (t.insert b).existsId a = true := by
  by_cases hb : t.existsId b = true
  · rw [insert_pos t b hb]; exact h
  · rw [insert_neg t b (by simpa using hb)]
    by_cases hab : a = b
    · subst hab
      rw [existsId_iff]
      exact lookupVal_insertAt_self a t.root a
    · rw [existsId_iff]
      rw [lookupVal_insertAt_ne _ _ _ _ hab]
      exact (existsId_iff t a).mp h

theorem insert_comm (t : MerkleTrie) (a b : SyncId) :
    (t.insert a).insert b = (t.insert b).insert a := by
  by_cases hab : a = b
  · rw [hab]
  · by_cases ha : t.existsId a = true
    · by_cases hb : t.existsId b = true
      · rw [insert_pos t a ha, insert_pos t b hb, insert_pos t a ha]
      · rw [insert_pos t a ha, insert_pos (t.insert b) a (existsId_insert_mono t a b ha)]
    · by_cases hb : t.existsId b = true
      · rw [insert_pos t b hb, insert_pos (t.insert a) b (existsId_insert_mono t b a hb)]
      · have ha' : t.existsId a = false := by simpa using ha
        have hb' : t.existsId b = false := by simpa using hb
        have hba : b ≠ a := fun hh => hab hh.symm
        have hea : (MerkleTrie.mk (insertAt t.root b b) true).existsId a = false := by
          simp only [MerkleTrie.existsId]
          rw [lookupVal_insertAt_ne _ _ _ _ hab]
          simpa [MerkleTrie.existsId] using ha'
        have heb : (MerkleTrie.mk (insertAt t.root a a) true).existsId b = false := by
          simp only [MerkleTrie.existsId]
          rw [lookupVal_insertAt_ne _ _ _ _ hba]
          simpa [MerkleTrie.existsId] using hb'
        rw [insert_neg t a ha', insert_neg t b hb',
          insert_neg _ b heb, insert_neg _ a hea]
        have := insertAt_comm a b a b t.root hab
        simpa using this

/-! ## Fold-level order independence -/

theorem foldl_insert_comm (l : List SyncId) : ∀ (T : MerkleTrie) (x : SyncId),
    l.foldl MerkleTrie.insert (T.insert x) = (l.foldl MerkleTrie.insert T).insert x := by
  induction l with
  | nil => intro T x; rfl
  | cons y l ih =>
      intro T x
      simp only [List.foldl_cons]
      rw [insert_comm T x y, ih]

theorem existsId_foldl_mono (l : List SyncId) : ∀ (T : MerkleTrie) (x : SyncId),
    T.existsId x = true → (l.foldl MerkleTrie.insert T).existsId x = true := by
  induction l with
  | nil => intro T x h; exact h
  | cons y l ih =>
      intro T x h
      exact ih (T.insert y) x (existsId_insert_mono T x y h)

theorem existsId_foldl_mem (l : List SyncId) : ∀ (T : MerkleTrie) (x : SyncId),
    x ∈ l → (l.foldl MerkleTrie.insert T).existsId x = true := by
  induction l with
  | nil => intro T x h; cases h
  | cons y l ih =>
      intro T x h
      rcases List.mem_cons.mp h with h | h
      · subst h
        exact existsId_foldl_mono l (T.insert x) x (existsId_insert_self T x)
      · exact ih (T.insert y) x h

theorem foldl_insert_absorb (l : List SyncId) (T : MerkleTrie) (x : SyncId)
    (h : x ∈ l) : (l.foldl MerkleTrie.insert T).insert x = l.foldl MerkleTrie.insert T :=
  insert_pos _ _ (existsId_foldl_mem l T x h)

theorem foldl_insert_of_perm {l1 l2 : List SyncId} (p : l1.Perm l2) :
    ∀ (T : MerkleTrie), l1.foldl MerkleTrie.insert T = l2.foldl MerkleTrie.insert T := by
  induction p with
  | nil => intro T; rfl
  | cons x _ ih => intro T; simp only [List.foldl_cons]; exact ih (T.insert x)
  | swap x y l =>
      intro T
      simp only [List.foldl_cons]
      rw [insert_comm T y x]
  | trans _ _ ih1 ih2 => intro T; rw [ih1 T, ih2 T]

theorem foldl_insert_dedup (l : List SyncId) : ∀ (T : MerkleTrie),
    l.foldl MerkleTrie.insert T = l.dedup.foldl MerkleTrie.insert T := by
  induction l with
  | nil => intro T; rfl
  | cons x l ih =>
      intro T
      by_cases hx : x ∈ l
      · rw [List.dedup_cons_of_mem hx]
        simp only [List.foldl_cons]
        rw [foldl_insert_comm, foldl_insert_absorb l T x hx, ih T]
      · rw [List.dedup_cons_of_not_mem hx]
        simp only [List.foldl_cons]
        exact ih (T.insert x)

theorem buildTrie_set_ext (l1 l2 : List SyncId)
    (h : ∀ x, x ∈ l1 ↔ x ∈ l2) : buildTrie l1 = buildTrie l2 := by
  have hperm : l1.dedup.Perm l2.dedup := by
    rw [List.perm_ext_iff_of_nodup (List.nodup_dedup l1) (List.nodup_dedup l2)]
    intro a
    rw [List.mem_dedup, List.mem_dedup]
    exact h a
  unfold buildTrie
  rw [foldl_insert_dedup l1, foldl_insert_dedup l2]
  exact foldl_insert_of_perm hperm MerkleTrie.empty

/-! ## Snapshots and divergence -/

/-- Modelled from the spec: the per-level excluded hash, the digest of
the concatenated hashes of all children whose digit differs from the
prefix digit at this level, in ascending digit order. -/
def excludedHashAt (cs : List (Digit × Trie)) (d : Digit) : Digest :=
  .nodeD (childHashes (cs.filter (fun kc => kc.1 != d)))

/-- Modelled from the spec: the snapshot walk.  Returns the (possibly
partial) prefix reached, the excluded hash recorded at each consumed
level, and the message count under the deepest node reached.  When a
child is missing the walk stops, still recording the level at which it
failed. -/
def snapshotAux : Trie → List Digit → List Digit × List Digest × Nat
  | t, [] => ([], [], numMessages t)
  | .mk v cs, d :: ds =>
      match getChild cs d with
      | none => ([d], [excludedHashAt cs d], numMessages (.mk v cs))
      | some c =>
          let r := snapshotAux c ds
          (d :: r.1, excludedHashAt cs d :: r.2.1, r.2.2)

/-- A trie snapshot: the prefix reached by the walk, the excluded hash
per level, and the message count under the deepest reached node. -/
structure TrieSnapshot where
  pfx : List Digit
  excludedHashes : List Digest
  numMessages : Nat

/-- Modelled from the spec: `getSnapshot(prefix)`. -/
def MerkleTrie.getSnapshot (t : MerkleTrie) (p : List Digit) : TrieSnapshot :=
  ⟨(snapshotAux t.root p).1, (snapshotAux t.root p).2.1, (snapshotAux t.root p).2.2⟩

/-- The entry-by-entry comparison loop of the divergence-prefix
computation: out-of-range entries on either side are `none`, as in the
source's indexing past the end of an array. -/
def divergeGo : List Digit → List Digest → List Digest → List Digit
  | [], _, _ => []
  | d :: ps, ours, other =>
      if ours.head? = other.head? then d :: divergeGo ps ours.tail other.tail
      else []

/-- Modelled from the spec: `getDivergencePrefix(prefix,
otherExcludedHashes)`, comparing the caller's excluded hashes with the
trie's own snapshot of the same prefix, entry by entry. -/
def MerkleTrie.getDivergencePrefix (t : MerkleTrie) (p : List Digit)
    (other : List Digest) : List Digit :=
  divergeGo p (t.getSnapshot p).excludedHashes other

/-! ## Well-formedness of reachable tries -/

/-- Every materialised subtree of a well-formed node carries at least
one leaf (the implementation collapses empty branches). -/
inductive WF : Trie → Prop where
  | mk (v : Option SyncId) (cs : List (Digit × Trie))
      (hpos : ∀ d c, (d, c) ∈ cs → 1 ≤ numMessages c)
      (hwf : ∀ d c, (d, c) ∈ cs → WF c) : WF (.mk v cs)

/-- The states reachable from a fresh trie by inserts and deletes of
sync-ids (sync-ids are nonempty digit strings). -/
inductive Reachable : MerkleTrie → Prop where
  | empty : Reachable MerkleTrie.empty
  | insert (t : MerkleTrie) (id : SyncId) :
      Reachable t → id ≠ [] → Reachable (t.insert id)
  | delete (t : MerkleTrie) (id : SyncId) :
      Reachable t → id ≠ [] → Reachable (t.delete id)

theorem wf_emptyTrie : WF emptyTrie := by
  refine WF.mk none [] ?_ ?_ <;> intro d c h <;> cases h

theorem mem_setChild (cs : List (Digit × Trie)) (d e : Digit) (x y : Trie)
    (h : (e, y) ∈ setChild cs d x) : (e = d ∧ y = x) ∨ (e, y) ∈ cs := by
  induction cs with
  | nil =>
      simp [setChild] at h
      exact Or.inl h
  | cons kc rest ih =>
      obtain ⟨k, c⟩ := kc
      by_cases h1 : d < k
      · simp only [setChild, if_pos h1] at h
        rcases List.mem_cons.mp h with h | h
        · exact Or.inl (by simpa using Prod.mk.injEq .. ▸ h)
        · exact Or.inr h
      · by_cases h2 : d = k
        · simp only [setChild, if_neg h1, if_pos h2] at h
          rcases List.mem_cons.mp h with h | h
          · exact Or.inl (by simpa using h)
          · exact Or.inr (List.mem_cons_of_mem _ h)
        · simp only [setChild, if_neg h1, if_neg h2] at h
          rcases List.mem_cons.mp h with h | h
          · exact Or.inr (h ▸ List.mem_cons_self _ _)
          · rcases ih h with h | h
            · exact Or.inl h
            · exact Or.inr (List.mem_cons_of_mem _ h)

theorem mem_setChild_self (cs : List (Digit × Trie)) (d : Digit) (x : Trie) :
    (d, x) ∈ setChild cs d x := by
  induction cs with
  | nil => simp [setChild]
  | cons kc rest ih =>
      obtain ⟨k, c⟩ := kc
      by_cases h1 : d < k
      · simp [setChild, h1]
      · by_cases h2 : d = k
        · simp [setChild, h1, h2]
        · simp only [setChild, if_neg h1, if_neg h2]
          exact List.mem_cons_of_mem _ ih

theorem mem_removeChild (cs : List (Digit × Trie)) (d : Digit) (p : Digit × Trie)
    (h : p ∈ removeChild cs d) : p ∈ cs := by
  induction cs with
  | nil => simp [removeChild] at h
  | cons kc rest ih =>
      obtain ⟨k, c⟩ := kc
      by_cases h1 : k = d
      · simp only [removeChild, if_pos h1] at h
        exact List.mem_cons_of_mem _ h
      · simp only [removeChild, if_neg h1] at h
        rcases List.mem_cons.mp h with h | h
        · exact h ▸ List.mem_cons_self _ _
        · exact List.mem_cons_of_mem _ (ih h)

theorem getChild_mem (cs : List (Digit × Trie)) (d : Digit) (c : Trie)
    (h : getChild cs d = some c) : (d, c) ∈ cs := by
  induction cs with
  | nil => simp [getChild] at h
  | cons kc rest ih =>
      obtain ⟨k, c'⟩ := kc
      by_cases h1 : k = d
      · subst h1
        rw [getChild, if_pos rfl] at h
        obtain rfl : c' = c := by injection h
        exact List.mem_cons_self _ _
      · rw [getChild, if_neg h1] at h
        exact List.mem_cons_of_mem _ (ih h)

theorem childCount_ge_of_mem (cs : List (Digit × Trie)) (d : Digit) (c : Trie)
    (h : (d, c) ∈ cs) : numMessages c ≤ childCount cs := by
  induction cs with
  | nil => cases h
  | cons kc rest ih =>
      obtain ⟨k, c'⟩ := kc
      rcases List.mem_cons.mp h with h | h
      · obtain ⟨h1, h2⟩ := Prod.ext_iff.mp h
        dsimp at h2
        subst h2
        simp only [childCount]
        omega
      · have := ih h
        simp only [childCount]
        omega

theorem numMessages_insertAt_pos (ds : List Digit) : ∀ (t : Trie) (id : SyncId),
    1 ≤ numMessages (insertAt t ds id) := by
  induction ds with
  | nil =>
      intro t id
      obtain ⟨v, cs⟩ := t
      simp [insertAt, numMessages]
  | cons d ds ih =>
      intro t id
      obtain ⟨v, cs⟩ := t
      have h1 := ih ((getChild cs d).getD emptyTrie) id
      have h2 := childCount_ge_of_mem _ d _
        (mem_setChild_self cs d (insertAt ((getChild cs d).getD emptyTrie) ds id))
      simp only [insertAt, numMessages]
      omega

theorem wf_insertAt (ds : List Digit) : ∀ (t : Trie) (id : SyncId),
    WF t → WF (insertAt t ds id) := by
  induction ds with
  | nil =>
      intro t id hwf
      obtain ⟨v, cs⟩ := t
      cases hwf with
      | mk _ _ hpos hwf => exact WF.mk _ _ hpos hwf
  | cons d ds ih =>
      intro t id hwf
      obtain ⟨v, cs⟩ := t
      cases hwf with
      | mk _ _ hpos hwf =>
          refine WF.mk _ _ ?_ ?_
          · intro e c hmem
            rcases mem_setChild _ _ _ _ _ hmem with ⟨he, hc⟩ | hmem'
            · subst hc
              exact numMessages_insertAt_pos ds _ id
            · exact hpos e c hmem'
          · intro e c hmem
            rcases mem_setChild _ _ _ _ _ hmem with ⟨he, hc⟩ | hmem'
            · subst hc
              refine ih _ id ?_
              cases hgc : getChild cs d with
              | none => simpa [hgc] using wf_emptyTrie
              | some c0 =>
                  have := hwf d c0 (getChild_mem cs d c0 hgc)
                  simpa [hgc] using this
            · exact hwf e c hmem'

theorem wf_deleteAt (ds : List Digit) : ∀ (t : Trie), WF t → WF (deleteAt t ds) := by
  induction ds with
  | nil =>
      intro t hwf
      obtain ⟨v, cs⟩ := t
      cases hwf with
      | mk _ _ hpos hwf => exact WF.mk _ _ hpos hwf
  | cons d ds ih =>
      intro t hwf
      obtain ⟨v, cs⟩ := t
      cases hwf with
      | mk _ _ hpos hwf =>
          simp only [deleteAt]
          cases hgc : getChild cs d with
          | none => exact WF.mk _ _ hpos hwf
          | some c =>
              simp only
              by_cases hz : numMessages (deleteAt c ds) = 0
              · rw [if_pos hz]
                refine WF.mk _ _ ?_ ?_
                · intro e c' hmem
                  exact hpos e c' (mem_removeChild _ _ _ hmem)
                · intro e c' hmem
                  exact hwf e c' (mem_removeChild _ _ _ hmem)
              · rw [if_neg hz]
                refine WF.mk _ _ ?_ ?_
                · intro e c' hmem
                  rcases mem_setChild _ _ _ _ _ hmem with ⟨he, hc⟩ | hmem'
                  · subst hc
                    omega
                  · exact hpos e c' hmem'
                · intro e c' hmem
                  rcases mem_setChild _ _ _ _ _ hmem with ⟨he, hc⟩ | hmem'
                  · subst hc
                    exact ih c (hwf d c (getChild_mem cs d c hgc))
                  · exact hwf e c' hmem'

theorem delete_pos (t : MerkleTrie) (id : SyncId) (h : t.existsId id = true) :
    t.delete id = ⟨deleteAt t.root id, true⟩ := by
  simp [MerkleTrie.delete, h]

theorem delete_neg (t : MerkleTrie) (id : SyncId) (h : t.existsId id = false) :
    t.delete id = t := by
  simp [MerkleTrie.delete, h]

theorem reachable_wf (T : MerkleTrie) (h : Reachable T) :
    WF T.root ∧ T.root.value = none := by
  induction h with
  | empty => exact ⟨wf_emptyTrie, rfl⟩
  | insert t id ht hne ih =>
      by_cases hex : t.existsId id = true
      · rw [insert_pos t id hex]; exact ih
      · rw [insert_neg t id (by simpa using hex)]
        cases id with
        | nil => exact absurd rfl hne
        | cons d ds =>
            rcases hr : t.root with ⟨v, cs⟩
            rw [hr] at ih
            refine ⟨?_, ?_⟩
            · exact wf_insertAt _ _ _ (hr ▸ ih.1)
            · have hv : v = none := ih.2
              subst hv
              simp [insertAt, Trie.value]
  | delete t id ht hne ih =>
      by_cases hex : t.existsId id = true
      · rw [delete_pos t id hex]
        cases id with
        | nil => exact absurd rfl hne
        | cons d ds =>
            rcases hr : t.root with ⟨v, cs⟩
            rw [hr] at ih
            refine ⟨wf_deleteAt _ _ (hr ▸ ih.1), ?_⟩
            have hv : v = none := ih.2
            subst hv
            simp only [hr, deleteAt]
            cases hgc : getChild cs d with
            | none => simp [Trie.value]
            | some c =>
                by_cases hz : numMessages (deleteAt c ds) = 0 <;>
                  simp [hz, Trie.value]
      · rw [delete_neg t id (by simpa using hex)]; exact ih

theorem reachable_untouched (T : MerkleTrie) (h : Reachable T)
    (ht : T.touched = false) : T = MerkleTrie.empty := by
  induction h with
  | empty => rfl
  | insert t id hr hne ih =>
      by_cases hex : t.existsId id = true
      · rw [insert_pos t id hex] at ht ⊢; exact ih ht
      · rw [insert_neg t id (by simpa using hex)] at ht
        cases ht
  | delete t id hr hne ih =>
      by_cases hex : t.existsId id = true
      · rw [delete_pos t id hex] at ht
        cases ht
      · rw [delete_neg t id (by simpa using hex)] at ht ⊢; exact ih ht

theorem childHashes_eq_nil_iff (cs : List (Digit × Trie)) :
    childHashes cs = [] ↔ cs = [] := by
  cases cs with
  | nil => simp [childHashes]
  | cons kc rest => obtain ⟨k, c⟩ := kc; simp [childHashes]

theorem reachable_rootHash_emptyHash (T : MerkleTrie) (h : Reachable T)
    (ht : T.touched = true) : T.rootHash = some emptyHashD ↔ T.items = 0 := by
  obtain ⟨hwf, hval⟩ := reachable_wf T h
  rcases hr : T.root with ⟨v, cs⟩
  have hv : v = none := by rw [hr] at hval; exact hval
  subst hv
  rw [hr] at hwf
  constructor
  · intro hh
    rw [MerkleTrie.rootHash, if_pos ht, hr] at hh
    simp only [nodeHash, emptyHashD, Option.some.injEq, Digest.nodeD.injEq] at hh
    have hcs : cs = [] := (childHashes_eq_nil_iff cs).mp hh
    subst hcs
    simp [MerkleTrie.items, hr, numMessages, childCount]
  · intro hh
    rw [MerkleTrie.items, hr] at hh
    simp only [numMessages, Option.isSome_none, Bool.false_eq_true, if_false,
      Nat.zero_add] at hh
    have hcs : cs = [] := by
      cases hcs : cs with
      | nil => rfl
      | cons kc rest =>
          obtain ⟨k, c⟩ := kc
          cases hwf with
          | mk _ _ hpos _ =>
              have h1 := hpos k c (hcs ▸ List.mem_cons_self _ _)
              rw [hcs] at hh
              simp only [childCount] at hh
              omega
    subst hcs
    rw [MerkleTrie.rootHash, if_pos ht, hr]
    simp [nodeHash, childHashes, emptyHashD]

/-! ## Claim C1: insertion-order independence of the merkle trie -/

/-- C1: inserting any finite set of sync-ids into an empty merkle trie
yields the same root hash and the same item count regardless of
insertion order and multiplicity, and re-inserting an id that is
already present changes neither the root hash nor the item count. -/
theorem insert_commutative_idempotent (l1 l2 : List SyncId) (T : MerkleTrie) (id : SyncId) :
    ((∀ x, x ∈ l1 ↔ x ∈ l2) →
      (buildTrie l1).rootHash = (buildTrie l2).rootHash ∧
      (buildTrie l1).items = (buildTrie l2).items) ∧
    (T.existsId id = true →
      (T.insert id).rootHash = T.rootHash ∧ (T.insert id).items = T.items) := by
  constructor
  · intro hset
    rw [buildTrie_set_ext l1 l2 hset]
    exact ⟨rfl, rfl⟩
  · intro hex
    rw [insert_pos T id hex]
    exact ⟨rfl, rfl⟩

theorem insert_commutative_idempotent_witness :
    (buildTrie [[1, 2], [3, 4], [3, 9]]).rootHash =
      (buildTrie [[3, 9], [1, 2], [3, 4], [1, 2]]).rootHash ∧
    ((buildTrie [[1, 2], [3, 4], [3, 9]]).insert [3, 4]).items =
      (buildTrie [[1, 2], [3, 4], [3, 9]]).items := by
  refine ⟨?_, ?_⟩
  · exact ((insert_commutative_idempotent [[1, 2], [3, 4], [3, 9]]
      [[3, 9], [1, 2], [3, 4], [1, 2]] MerkleTrie.empty []).1
      (by intro x; simp only [List.mem_cons, List.not_mem_nil, or_false]; tauto)).1
  · exact ((insert_commutative_idempotent [] [] (buildTrie [[1, 2], [3, 4], [3, 9]])
      [3, 4]).2 (by decide)).2

/-! ## Claim C3: root hash of the empty trie -/

/-- C3 counterexample: the freshly constructed empty trie is a
reachable state with numMessages = 0 whose root hash is the empty
string, not emptyHash = blake3("", 16) — so the claimed biconditional
fails at the fresh trie. -/
theorem fresh_trie_rootHash_not_emptyHash :
    Reachable MerkleTrie.empty ∧ MerkleTrie.empty.items = 0 ∧
      MerkleTrie.empty.rootHash ≠ some emptyHashD :=
  ⟨Reachable.empty, rfl, by decide⟩

/-- C3 (amended): for every reachable trie on which at least one
successful insert or delete has occurred (the cached root hash has been
computed), rootHash = emptyHash ↔ numMessages = 0 — in particular for a
trie emptied by deleting its last leaf; a freshly constructed trie (no
successful operation yet) instead reports the empty string as its root
hash, with numMessages = 0. -/
theorem rootHash_emptyHash_iff_no_messages (T : MerkleTrie) (h : Reachable T) :
    (T.touched = true → (T.rootHash = some emptyHashD ↔ T.items = 0)) ∧
    (T.touched = false → T.rootHash = none ∧ T.items = 0) := by
  constructor
  · intro ht
    exact reachable_rootHash_emptyHash T h ht
  · intro ht
    rw [reachable_untouched T h ht]
    exact ⟨rfl, rfl⟩

theorem rootHash_emptyHash_iff_no_messages_witness :
    ((MerkleTrie.empty.insert [1, 2]).delete [1, 2]).rootHash = some emptyHashD := by
  have hreach : Reachable ((MerkleTrie.empty.insert [1, 2]).delete [1, 2]) :=
    Reachable.delete _ _ (Reachable.insert _ _ Reachable.empty (by decide)) (by decide)
  exact ((rootHash_emptyHash_iff_no_messages _ hreach).1 (by decide)).mpr (by decide)

/-! ## Claim C4: the divergence prefix -/

theorem snapshotAux_excluded_ne_nil (t : Trie) (d : Digit) (ds : List Digit) :
    (snapshotAux t (d :: ds)).2.1 ≠ [] := by
  rcases t with ⟨v, cs⟩
  simp only [snapshotAux]
  cases getChild cs d <;> simp

theorem divergeGo_isPrefix (p : List Digit) : ∀ (ours other : List Digest),
    divergeGo p ours other <+: p := by
  induction p with
  | nil => intro ours other; simp [divergeGo]
  | cons d ps ih =>
      intro ours other
      by_cases h : ours.head? = other.head?
      · simp only [divergeGo, if_pos h]
        obtain ⟨r, hr⟩ := ih ours.tail other.tail
        exact ⟨r, by simp [hr]⟩
      · simp only [divergeGo, if_neg h]
        exact List.nil_prefix

theorem divergeGo_agree (p : List Digit) : ∀ (ours other : List Digest) (i : Nat),
    i < (divergeGo p ours other).length → ours[i]? = other[i]? := by
  induction p with
  | nil => intro ours other i h; simp [divergeGo] at h
  | cons d ps ih =>
      intro ours other i h
      by_cases hh : ours.head? = other.head?
      · rw [divergeGo, if_pos hh] at h
        cases i with
        | zero =>
            cases ours with
            | nil => cases other with
              | nil => rfl
              | cons y ys => simp [List.head?] at hh
            | cons x xs => cases other with
              | nil => simp [List.head?] at hh
              | cons y ys => simpa using hh
        | succ i =>
            have := ih ours.tail other.tail i (by simpa using h)
            cases ours with
            | nil => cases other with
              | nil => rfl
              | cons y ys => simp [List.head?] at hh
            | cons x xs => cases other with
              | nil => simp [List.head?] at hh
              | cons y ys => simpa using this
      · rw [divergeGo, if_neg hh] at h
        simp at h

theorem divergeGo_maximal (p : List Digit) : ∀ (ours other : List Digest) (k : Nat),
    k ≤ p.length → (∀ i, i < k → ours[i]? = other[i]?) →
    k ≤ (divergeGo p ours other).length := by
  induction p with
  | nil => intro ours other k hk _; simpa [divergeGo] using hk
  | cons d ps ih =>
      intro ours other k hk hagree
      cases k with
      | zero => exact Nat.zero_le _
      | succ k =>
          have h0 : ours.head? = other.head? := by
            have := hagree 0 (Nat.succ_pos k)
            cases ours with
            | nil => cases other with
              | nil => rfl
              | cons y ys => simp at this
            | cons x xs => cases other with
              | nil => simp at this
              | cons y ys => simpa using this
          rw [divergeGo, if_pos h0]
          simp only [List.length_cons, Nat.succ_le_succ_iff]
          refine ih ours.tail other.tail k (by simpa using hk) ?_
          intro i hi
          have := hagree (i + 1) (Nat.succ_lt_succ hi)
          cases ours with
          | nil => cases other with
            | nil => rfl
            | cons y ys => simpa using this
          | cons x xs => cases other with
            | nil => simpa using this
            | cons y ys => simpa using this

/-- C4 counterexample: on a concrete trie the divergence prefix of a
requested prefix against the trie's own excluded hashes is the full
requested prefix itself — not a strict (proper) prefix of it, refuting
the claim's "longest strict prefix" reading. -/
theorem divergencePrefix_not_strict :
    (buildTrie [[1, 2]]).getDivergencePrefix [1, 2]
        ((buildTrie [[1, 2]]).getSnapshot [1, 2]).excludedHashes = [1, 2] ∧
      ([1, 2] : List Digit) ≠ [] :=
  ⟨by decide, by decide⟩

/-- C4 (amended): getDivergencePrefix returns the longest (not
necessarily strict) prefix of the requested prefix such that at every
index below its length the trie's own excluded hashes agree with the
provided ones, out-of-range entries on either side comparing as
absent — so a requested prefix longer than the common array length is
effectively capped at the shorter array — and an empty excluded-hashes
array yields the empty prefix. -/
theorem divergencePrefix_longest_agreeing (t : MerkleTrie) (p : List Digit)
    (other : List Digest) :
    (t.getDivergencePrefix p other <+: p) ∧
    (∀ i, i < (t.getDivergencePrefix p other).length →
      ((t.getSnapshot p).excludedHashes)[i]? = other[i]?) ∧
    (∀ k, k ≤ p.length →
      (∀ i, i < k → ((t.getSnapshot p).excludedHashes)[i]? = other[i]?) →
      k ≤ (t.getDivergencePrefix p other).length) ∧
    (other = [] → t.getDivergencePrefix p other = []) := by
  refine ⟨divergeGo_isPrefix p _ _, divergeGo_agree p _ _, divergeGo_maximal p _ _, ?_⟩
  intro hother
  subst hother
  cases p with
  | nil => rfl
  | cons d ps =>
      have hne := snapshotAux_excluded_ne_nil t.root d ps
      rw [MerkleTrie.getDivergencePrefix]
      cases hcs : (t.getSnapshot (d :: ps)).excludedHashes with
      | nil =>
          rw [MerkleTrie.getSnapshot] at hcs
          exact absurd hcs hne
      | cons e es => simp [divergeGo, List.head?]

theorem divergencePrefix_longest_agreeing_witness :
    (buildTrie [[1, 2]]).getDivergencePrefix [1, 2] [] = [] ∧
      (buildTrie [[1, 2]]).getDivergencePrefix [1, 2]
        ((buildTrie [[1, 2]]).getSnapshot [1, 2]).excludedHashes = [1, 2] := by
  constructor
  · exact (divergencePrefix_longest_agreeing (buildTrie [[1, 2]]) [1, 2] []).2.2.2 rfl
  · have h := (divergencePrefix_longest_agreeing (buildTrie [[1, 2]]) [1, 2]
      ((buildTrie [[1, 2]]).getSnapshot [1, 2]).excludedHashes)
    have h2 := h.2.2.1 2 (by decide) (fun i _ => rfl)
    have h1 := h.1
    have := List.IsPrefix.eq_of_length h1 ?_
    · exact this
    · have := h1.length_le
      simp only [List.length_cons, List.length_nil] at this ⊢
      omega

/-! ## Claim C5: excluded hashes of a concrete snapshot -/

/-- Modelled from the spec: `getTrieNodeMetadata(prefix)`, reporting
the node at a prefix together with the hash and message count of each
child. -/
structure TrieNodeMetadata where
  pfx : List Digit
  numMessages : Nat
  hash : Digest
  children : List (Digit × Digest × Nat)

/-- Modelled from the spec: metadata of the node reached by a prefix
walk, or none if the prefix is not present. -/
def MerkleTrie.getTrieNodeMetadata (t : MerkleTrie) (p : List Digit) :
    Option TrieNodeMetadata :=
  (nodeAt t.root p).map fun n =>
    ⟨p, numMessages n, nodeHash n,
      n.children.map fun kc => (kc.1, nodeHash kc.2, numMessages kc.2)⟩

/-- The hash of the child at a given digit of the node at a given
prefix. -/
def childHashOf (t : MerkleTrie) (p : List Digit) (d : Digit) : Option Digest :=
  (nodeAt t.root p).bind fun n => (getChild n.children d).map nodeHash

/-- Sync-id with timestamp 1665182332 (an arbitrary two-digit tsHash
suffix stands in for the random message hash). -/
def syncId32 : SyncId := [1, 6, 6, 5, 1, 8, 2, 3, 3, 2, 10, 11]

/-- Sync-id with timestamp 1665182343. -/
def syncId43 : SyncId := [1, 6, 6, 5, 1, 8, 2, 3, 4, 3, 10, 11]

/-- Sync-id with timestamp 1665182345. -/
def syncId45 : SyncId := [1, 6, 6, 5, 1, 8, 2, 3, 4, 5, 10, 11]

/-- Sync-id with timestamp 1665182351. -/
def syncId51 : SyncId := [1, 6, 6, 5, 1, 8, 2, 3, 5, 1, 10, 11]

/-- The trie built from the four scenario timestamps. -/
def trieS4 : MerkleTrie := buildTrie [syncId32, syncId43, syncId45, syncId51]

/-- The 10-digit prefix "1665182351". -/
def pfx51 : List Digit := [1, 6, 6, 5, 1, 8, 2, 3, 5, 1]

/-- The 8-digit prefix "16651823". -/
def pfx8 : List Digit := [1, 6, 6, 5, 1, 8, 2, 3]

/-- C5: for the trie built from timestamps {1665182332, 1665182343,
1665182345, 1665182351}, the snapshot at "1665182351" has 10 excluded
hashes; the 9th (index 8) equals blake3(child '3' hash ‖ child '4'
hash) over the children of the node at "16651823" in sorted digit
order, and every other entry equals emptyHash = blake3("", 16). -/
theorem snapshot_excluded_hashes_scenario :
    (trieS4.getSnapshot pfx51).excludedHashes.length = 10 ∧
    ((trieS4.getSnapshot pfx51).excludedHashes)[8]? =
      (childHashOf trieS4 pfx8 3).bind (fun h3 =>
        (childHashOf trieS4 pfx8 4).map (fun h4 => Digest.nodeD [h3, h4])) ∧
    (∀ i, i < 10 → i ≠ 8 →
      ((trieS4.getSnapshot pfx51).excludedHashes)[i]? = some emptyHashD) := by
  refine ⟨by decide, by decide, ?_⟩
  decide

/-! ## The signer store and identity-event ingestion -/

def exceptDecEq {e a : Type} [DecidableEq e] [DecidableEq a] :
    (x y : Except e a) → Decidable (x = y)
  | .ok x, .ok y =>
      match decEq x y with
      | isTrue h => isTrue (by rw [h])
      | isFalse h => isFalse (by simp [h])
  | .ok _, .error _ => isFalse (by simp)
  | .error _, .ok _ => isFalse (by simp)
  | .error x, .error y =>
      match decEq x y with
      | isTrue h => isTrue (by rw [h])
      | isFalse h => isFalse (by simp [h])

instance {e a : Type} [DecidableEq e] [DecidableEq a] : DecidableEq (Except e a) :=
  exceptDecEq

/-- The message types of the protocol. -/
inductive MessageType where
  | signerAdd
  | signerRemove
  | castAdd
  | castRemove
  | reactionAdd
  | reactionRemove
  | ampAdd
  | ampRemove
  | verificationAddEthAddress
  | verificationRemove
  | userDataAdd
deriving DecidableEq, Repr

/-- Modelled from the spec: the fields of a signer message that the
store consults.  `signer` is the key that signed the message (the
custody address); `bodySigner` is the delegate key named in the body,
the target of the add/remove pair. -/
structure SignerMessage where
  fid : List Nat
  mtype : MessageType
  timestamp : Nat
  hash : List Nat
  signer : List Nat
  bodySigner : List Nat
deriving DecidableEq, Repr

/-- An error value: `code` is the dotted error kind of §7. -/
structure HubError where
  code : String
  message : String
deriving DecidableEq, Repr

/-- Modelled from the spec: an IdRegistry event, ordered by
`(blockNumber, logIndex)`. -/
structure IdRegistryEvent where
  fid : List Nat
  blockNumber : Nat
  logIndex : Nat
  blockHash : List Nat
  transactionHash : List Nat
  toAddr : List Nat
  fromAddr : Option (List Nat)
deriving DecidableEq, Repr

/-- The events observable on the store's event bus. -/
inductive StoreEvent where
  | mergeMessage (m : SignerMessage)
  | pruneMessage (m : SignerMessage)
  | revokeMessage (m : SignerMessage)
  | mergeIdRegistryEvent (e : IdRegistryEvent)
deriving DecidableEq, Repr

/-- Modelled from the spec: the signer store state — the stored message
rows, the current IdRegistry event per fid, the event log in emit
order, and the per-fid prune size limit.  The add/remove set entries
and by-signer index rows are kept in sync with the message rows within
one transaction, so they are derived views here. -/
structure SignerStore where
  messages : List SignerMessage
  custodyEvents : List (List Nat × IdRegistryEvent)
  events : List StoreEvent
  pruneSizeLimit : Nat
deriving DecidableEq, Repr

/-- A signer store with no rows and an empty event log. -/
def SignerStore.init (limit : Nat) : SignerStore := ⟨[], [], [], limit⟩

/-- Bytewise lexicographic comparison of byte strings. -/
def bytesCompare : List Nat → List Nat → Ordering
  | [], [] => .eq
  | [], _ :: _ => .lt
  | _ :: _, [] => .gt
  | x :: xs, y :: ys =>
      if x < y then .lt else if y < x then .gt else bytesCompare xs ys

/-- Modelled from the spec: the conflict comparator.  Higher timestamp
wins; at equal timestamps a Remove beats an Add; at equal timestamps
and equal polarity the bytewise greater hash wins. -/
def compareMessages (x y : SignerMessage) : Ordering :=
  if x.timestamp < y.timestamp then .lt
  else if y.timestamp < x.timestamp then .gt
  else if x.mtype = y.mtype then bytesCompare x.hash y.hash
  else if x.mtype = .signerRemove then .gt
  else .lt

/-- The current SignerAdd row for a (fid, signer) target. -/
def lookupSignerAdd (msgs : List SignerMessage) (fid s : List Nat) :
    Option SignerMessage :=
  msgs.find? fun m => m.mtype == .signerAdd && m.fid == fid && m.bodySigner == s

/-- The current SignerRemove row for a (fid, signer) target. -/
def lookupSignerRemove (msgs : List SignerMessage) (fid s : List Nat) :
    Option SignerMessage :=
  msgs.find? fun m => m.mtype == .signerRemove && m.fid == fid && m.bodySigner == s

/-- Modelled from the spec: `SignerStore.merge`.  Validates the type,
resolves the conflict against the existing remove then the existing
add with the comparator, and on a win deletes the loser's row, writes
the new row and emits `mergeMessage`; losing or duplicate messages are
a successful no-op with no event (per the store's unit tests, conflict
losers are deleted without an event of their own). -/
def SignerStore.merge (st : SignerStore) (msg : SignerMessage) :
    SignerStore × Except HubError Unit :=
  if msg.mtype ≠ .signerAdd ∧ msg.mtype ≠ .signerRemove then
    (st, .error ⟨"bad_request.validation_failure", "invalid message type"⟩)
  else
    match lookupSignerRemove st.messages msg.fid msg.bodySigner with
    | some r =>
        if compareMessages msg r = .gt then
          ({ st with messages := msg :: st.messages.filter (fun m => m != r),
                     events := st.events ++ [.mergeMessage msg] }, .ok ())
        else (st, .ok ())
    | none =>
        match lookupSignerAdd st.messages msg.fid msg.bodySigner with
        | some a =>
            if compareMessages msg a = .gt then
              ({ st with messages := msg :: st.messages.filter (fun m => m != a),
                         events := st.events ++ [.mergeMessage msg] }, .ok ())
            else (st, .ok ())
        | none =>
            ({ st with messages := msg :: st.messages,
                       events := st.events ++ [.mergeMessage msg] }, .ok ())

/-- `getSignerAdd(fid, signer)`: the current add, or `not_found`. -/
def SignerStore.getSignerAdd (st : SignerStore) (fid s : List Nat) :
    Except HubError SignerMessage :=
  match lookupSignerAdd st.messages fid s with
  | some m => .ok m
  | none => .error ⟨"not_found", "message not found"⟩

/-- `getSignerRemove(fid, signer)`: the current remove, or `not_found`. -/
def SignerStore.getSignerRemove (st : SignerStore) (fid s : List Nat) :
    Except HubError SignerMessage :=
  match lookupSignerRemove st.messages fid s with
  | some m => .ok m
  | none => .error ⟨"not_found", "message not found"⟩

/-- The by-signer secondary index: all stored messages of a fid signed
by a given key. -/
def SignerStore.getAllBySigner (st : SignerStore) (fid s : List Nat) :
    List SignerMessage :=
  st.messages.filter fun m => m.fid == fid && m.signer == s

/-- The current IdRegistry event of a fid. -/
def lookupCustody (evs : List (List Nat × IdRegistryEvent)) (fid : List Nat) :
    Option IdRegistryEvent :=
  (evs.find? fun p => p.1 == fid).map (·.2)

/-- Replace (or create) the current IdRegistry event of a fid. -/
def setCustody (evs : List (List Nat × IdRegistryEvent)) (fid : List Nat)
    (e : IdRegistryEvent) : List (List Nat × IdRegistryEvent) :=
  (fid, e) :: evs.filter fun p => p.1 != fid

/-- `getCustodyEvent(fid)`: the current event, or `not_found`. -/
def SignerStore.getCustodyEvent (st : SignerStore) (fid : List Nat) :
    Except HubError IdRegistryEvent :=
  match lookupCustody st.custodyEvents fid with
  | some e => .ok e
  | none => .error ⟨"not_found", "event not found"⟩

/-- Strict lexicographic order on `(blockNumber, logIndex)`. -/
def idEventGt (a b : Nat × Nat) : Bool :=
  b.1 < a.1 || (a.1 == b.1 && b.2 < a.2)

/-- Modelled from the spec: `SignerStore.mergeIdRegistryEvent`.  A
first event is persisted; an event equal in `(blockNumber, logIndex)`
to the current one but differing in blockHash or transactionHash is a
chain inconsistency and fails with `bad_request.conflict`; a strictly
greater event replaces the current one; a lesser or identical event is
a no-op.  Replacement never touches the message rows — revocation of
the previous custody's messages is a separate, later step. -/
def SignerStore.mergeIdRegistryEvent (st : SignerStore) (e : IdRegistryEvent) :
    SignerStore × Except HubError Unit :=
  match lookupCustody st.custodyEvents e.fid with
  | none =>
      ({ st with custodyEvents := setCustody st.custodyEvents e.fid e,
                 events := st.events ++ [.mergeIdRegistryEvent e] }, .ok ())
  | some cur =>
      if e.blockNumber = cur.blockNumber ∧ e.logIndex = cur.logIndex then
        if e.blockHash = cur.blockHash ∧ e.transactionHash = cur.transactionHash then
          (st, .ok ())
        else
          (st, .error ⟨"bad_request.conflict",
            "event conflicts with a more recent IdRegistryEvent"⟩)
      else if idEventGt (e.blockNumber, e.logIndex) (cur.blockNumber, cur.logIndex) then
        ({ st with custodyEvents := setCustody st.custodyEvents e.fid e,
                   events := st.events ++ [.mergeIdRegistryEvent e] }, .ok ())
      else (st, .ok ())

/-- Modelled from the spec: `revokeMessagesBySigner(fid, signer)` scans
the by-signer index, deletes every message of the fid signed by the
given key, and emits one `revokeMessage` per deleted message. -/
def SignerStore.revokeMessagesBySigner (st : SignerStore) (fid s : List Nat) :
    SignerStore × Except HubError Unit :=
  ({ st with
      messages := st.messages.filter fun m => !(m.fid == fid && m.signer == s),
      events := st.events ++
        (st.messages.filter fun m => m.fid == fid && m.signer == s).map
          .revokeMessage }, .ok ())

/-- tsHash order: by timestamp, then bytewise by hash (tsHash is the
big-endian timestamp followed by the hash, so this is the ascending
KV-key order the store iterates in). -/
def msgLe (x y : SignerMessage) : Prop :=
  x.timestamp < y.timestamp ∨
    (x.timestamp = y.timestamp ∧ bytesCompare x.hash y.hash ≠ .gt)

instance : DecidableRel msgLe := fun x y => by
  unfold msgLe
  infer_instance

/-- Sorting by ascending tsHash. -/
def sortByTsHash (l : List SignerMessage) : List SignerMessage :=
  l.insertionSort msgLe

/-- The stored messages of a fid. -/
def SignerStore.messagesForFid (st : SignerStore) (fid : List Nat) :
    List SignerMessage :=
  st.messages.filter fun m => m.fid == fid

/-- The messages pruneMessages will delete: the earliest of the fid's
messages in ascending tsHash order, as many as the per-fid count
exceeds the prune size limit. -/
def pruneVictims (st : SignerStore) (fid : List Nat) : List SignerMessage :=
  (sortByTsHash (st.messagesForFid fid)).take
    ((sortByTsHash (st.messagesForFid fid)).length - st.pruneSizeLimit)

/-- Modelled from the spec: `pruneMessages(fid)` iterates the fid's
messages in ascending tsHash order and deletes the earliest until the
per-fid count is at most `pruneSizeLimit`, emitting one `pruneMessage`
per deletion. -/
def SignerStore.pruneMessages (st : SignerStore) (fid : List Nat) :
    SignerStore × Except HubError Unit :=
  ({ st with
      messages := st.messages.filter fun m => !(pruneVictims st fid).contains m,
      events := st.events ++ (pruneVictims st fid).map .pruneMessage }, .ok ())

/-! ## Claim C2: remove beats add at equal timestamps -/

theorem merge_into_empty_add (L : Nat) (a : SignerMessage)
    (ha : a.mtype = .signerAdd ∨ a.mtype = .signerRemove) :
    (SignerStore.init L).merge a =
      (⟨[a], [], [.mergeMessage a], L⟩, .ok ()) := by
  rcases ha with ha | ha <;>
    simp [SignerStore.merge, SignerStore.init, lookupSignerRemove, lookupSignerAdd, ha]

/-- C2: for a SignerAdd `a` and a SignerRemove `r` with the same
(fid, signer) target and equal timestamps, merging both in either order
into a store with no prior row for the target leaves the remove as the
winner regardless of the hashes: getSignerRemove returns `r`,
getSignerAdd fails with not_found, and the losing add's row is gone. -/
theorem remove_wins_at_equal_timestamp (L : Nat) (a r : SignerMessage)
    (ha : a.mtype = .signerAdd) (hr : r.mtype = .signerRemove)
    (hfid : a.fid = r.fid) (hbs : a.bodySigner = r.bodySigner)
    (hts : a.timestamp = r.timestamp) :
    ((((SignerStore.init L).merge a).1.merge r).1.getSignerRemove a.fid a.bodySigner
        = .ok r ∧
      (((SignerStore.init L).merge a).1.merge r).1.getSignerAdd a.fid a.bodySigner
        = .error ⟨"not_found", "message not found"⟩ ∧
      a ∉ (((SignerStore.init L).merge a).1.merge r).1.messages) ∧
    ((((SignerStore.init L).merge r).1.merge a).1.getSignerRemove a.fid a.bodySigner
        = .ok r ∧
      (((SignerStore.init L).merge r).1.merge a).1.getSignerAdd a.fid a.bodySigner
        = .error ⟨"not_found", "message not found"⟩ ∧
      a ∉ (((SignerStore.init L).merge r).1.merge a).1.messages) := by
  have hanr : a ≠ r := by
    intro hh
    rw [hh] at ha
    rw [ha] at hr
    cases hr
  have hcmp_ra : compareMessages r a = .gt := by
    simp [compareMessages, hts, hr, ha, lt_irrefl]
  have hcmp_ar : compareMessages a r ≠ .gt := by
    simp [compareMessages, hts, ha, hr, lt_irrefl]
  have h1 := merge_into_empty_add L a (Or.inl ha)
  have h2 := merge_into_empty_add L r (Or.inr hr)
  constructor
  · rw [h1]
    have hstep : (SignerStore.mk [a] [] [.mergeMessage a] L).merge r =
        (⟨[r], [], [.mergeMessage a, .mergeMessage r], L⟩, .ok ()) := by
      simp [SignerStore.merge, lookupSignerRemove, lookupSignerAdd, ha, hr,
        hfid, hbs, hcmp_ra, hanr]
    rw [hstep]
    refine ⟨?_, ?_, ?_⟩
    · simp [SignerStore.getSignerRemove, lookupSignerRemove, hr, hfid, hbs]
    · simp [SignerStore.getSignerAdd, lookupSignerAdd, hr]
    · simp [hanr]
  · rw [h2]
    have hstep : (SignerStore.mk [r] [] [.mergeMessage r] L).merge a =
        (⟨[r], [], [.mergeMessage r], L⟩, .ok ()) := by
      simp [SignerStore.merge, lookupSignerRemove, lookupSignerAdd, ha, hr,
        hfid, hbs, hcmp_ar]
    rw [hstep]
    refine ⟨?_, ?_, ?_⟩
    · simp [SignerStore.getSignerRemove, lookupSignerRemove, hr, hfid, hbs]
    · simp [SignerStore.getSignerAdd, lookupSignerAdd, hr]
    · simp [hanr]

theorem remove_wins_at_equal_timestamp_witness :
    ((((SignerStore.init 5).merge
        ⟨[7], .signerAdd, 100, [1], [9], [3]⟩).1.merge
        ⟨[7], .signerRemove, 100, [0], [9], [3]⟩).1.getSignerRemove [7] [3]
      = .ok ⟨[7], .signerRemove, 100, [0], [9], [3]⟩) := by
  exact (remove_wins_at_equal_timestamp 5
    ⟨[7], .signerAdd, 100, [1], [9], [3]⟩
    ⟨[7], .signerRemove, 100, [0], [9], [3]⟩
    rfl rfl rfl rfl rfl).1.1

/-! ## Claim C6: chain-inconsistent IdRegistry events are rejected -/

/-- C6: if a current IdRegistry event exists for a fid and an incoming
event has the same (blockNumber, logIndex) but a different blockHash or
transactionHash, the merge fails with bad_request.conflict, the stored
current event is unchanged, and no mergeIdRegistryEvent event is
emitted. -/
theorem idRegistry_conflict_rejected (st : SignerStore) (e cur : IdRegistryEvent)
    (hcur : lookupCustody st.custodyEvents e.fid = some cur)
    (hbn : e.blockNumber = cur.blockNumber) (hli : e.logIndex = cur.logIndex)
    (hdiff : e.blockHash ≠ cur.blockHash ∨ e.transactionHash ≠ cur.transactionHash) :
    st.mergeIdRegistryEvent e =
      (st, .error ⟨"bad_request.conflict",
        "event conflicts with a more recent IdRegistryEvent"⟩) ∧
    (st.mergeIdRegistryEvent e).1.getCustodyEvent e.fid = .ok cur ∧
    (st.mergeIdRegistryEvent e).1.events = st.events := by
  have hmain : st.mergeIdRegistryEvent e =
      (st, .error ⟨"bad_request.conflict",
        "event conflicts with a more recent IdRegistryEvent"⟩) := by
    rw [SignerStore.mergeIdRegistryEvent, hcur]
    simp only [hbn, hli, and_self, if_true]
    rcases hdiff with h | h <;> simp [h]
  refine ⟨hmain, ?_, ?_⟩
  · rw [hmain]
    simp [SignerStore.getCustodyEvent, hcur]
  · rw [hmain]

theorem idRegistry_conflict_rejected_witness :
    ((SignerStore.mk [] [([1], ⟨[1], 10, 0, [5], [6], [2], none⟩)] [] 10).mergeIdRegistryEvent
        ⟨[1], 10, 0, [7], [6], [2], none⟩).1.getCustodyEvent [1]
      = .ok ⟨[1], 10, 0, [5], [6], [2], none⟩ :=
  (idRegistry_conflict_rejected
    (SignerStore.mk [] [([1], ⟨[1], 10, 0, [5], [6], [2], none⟩)] [] 10)
    ⟨[1], 10, 0, [7], [6], [2], none⟩ ⟨[1], 10, 0, [5], [6], [2], none⟩
    rfl rfl rfl (Or.inl (by decide))).2.1

/-! ## Claim C7: replacement preserves the message rows -/

theorem lookupCustody_setCustody_self (evs : List (List Nat × IdRegistryEvent))
    (fid : List Nat) (e : IdRegistryEvent) :
    lookupCustody (setCustody evs fid e) fid = some e := by
  simp [lookupCustody, setCustody, List.find?]

/-- C7: when mergeIdRegistryEvent replaces the current event for a fid
with a strictly greater one by (blockNumber, logIndex) — higher
blockNumber, or equal blockNumber and higher logIndex — the merge
succeeds, the new event becomes current, and the message rows are
untouched: every previously merged signer message is still stored, the
getSignerAdd and by-signer views are unchanged, and no message is
deleted. -/
theorem idRegistry_replace_preserves_messages (st : SignerStore)
    (e cur : IdRegistryEvent)
    (hcur : lookupCustody st.custodyEvents e.fid = some cur)
    (hgt : cur.blockNumber < e.blockNumber ∨
      (e.blockNumber = cur.blockNumber ∧ cur.logIndex < e.logIndex)) :
    (st.mergeIdRegistryEvent e).2 = .ok () ∧
    (st.mergeIdRegistryEvent e).1.messages = st.messages ∧
    (st.mergeIdRegistryEvent e).1.getCustodyEvent e.fid = .ok e ∧
    (∀ f s, (st.mergeIdRegistryEvent e).1.getSignerAdd f s = st.getSignerAdd f s) ∧
    (∀ f s, (st.mergeIdRegistryEvent e).1.getAllBySigner f s = st.getAllBySigner f s) := by
  have hne : ¬ (e.blockNumber = cur.blockNumber ∧ e.logIndex = cur.logIndex) := by
    rintro ⟨h1, h2⟩
    rcases hgt with h | ⟨_, h⟩ <;> omega
  have hgt' : idEventGt (e.blockNumber, e.logIndex)
      (cur.blockNumber, cur.logIndex) = true := by
    simp only [idEventGt, Bool.or_eq_true, decide_eq_true_eq, Bool.and_eq_true,
      beq_iff_eq]
    tauto
  have hmain : st.mergeIdRegistryEvent e =
      ({ st with custodyEvents := setCustody st.custodyEvents e.fid e,
                 events := st.events ++ [.mergeIdRegistryEvent e] }, .ok ()) := by
    rw [SignerStore.mergeIdRegistryEvent, hcur]
    simp [hne, hgt']
  refine ⟨?_, ?_, ?_, ?_, ?_⟩
  · rw [hmain]
  · rw [hmain]
  · rw [hmain]
    simp [SignerStore.getCustodyEvent, lookupCustody_setCustody_self]
  · intro f s
    rw [hmain]
    simp [SignerStore.getSignerAdd, lookupSignerAdd]
  · intro f s
    rw [hmain]
    simp [SignerStore.getAllBySigner]

theorem idRegistry_replace_preserves_messages_witness :
    ((SignerStore.mk [⟨[1], .signerAdd, 100, [1], [2], [3]⟩]
        [([1], ⟨[1], 10, 0, [5], [6], [2], none⟩)] [] 10).mergeIdRegistryEvent
        ⟨[1], 11, 0, [8], [9], [4], some [2]⟩).1.getSignerAdd [1] [3]
      = .ok ⟨[1], .signerAdd, 100, [1], [2], [3]⟩ := by
  have h := (idRegistry_replace_preserves_messages
    (SignerStore.mk [⟨[1], .signerAdd, 100, [1], [2], [3]⟩]
      [([1], ⟨[1], 10, 0, [5], [6], [2], none⟩)] [] 10)
    ⟨[1], 11, 0, [8], [9], [4], some [2]⟩ ⟨[1], 10, 0, [5], [6], [2], none⟩
    rfl (Or.inl (by decide))).2.2.2.1 [1] [3]
  rw [h]
  rfl

/-! ## Claim C8: revocation by signer -/

/-- C8: after revokeMessagesBySigner(fid, s) no message of the fid
signed by s remains (the by-signer index for s is empty), the deleted
rows are exactly the previously indexed ones, exactly one revokeMessage
event is appended per deleted message, and when no message of the fid
was signed by s nothing is deleted and no event is emitted. -/
theorem revoke_deletes_all_by_signer (st : SignerStore) (fid s : List Nat) :
    (st.revokeMessagesBySigner fid s).1.getAllBySigner fid s = [] ∧
    (st.revokeMessagesBySigner fid s).1.messages =
      st.messages.filter (fun m => !(m.fid == fid && m.signer == s)) ∧
    (st.revokeMessagesBySigner fid s).1.events =
      st.events ++ (st.getAllBySigner fid s).map .revokeMessage ∧
    (st.getAllBySigner fid s = [] → (st.revokeMessagesBySigner fid s).1 = st) := by
  refine ⟨?_, rfl, rfl, ?_⟩
  · simp only [SignerStore.revokeMessagesBySigner, SignerStore.getAllBySigner,
      List.filter_filter]
    have : (fun m : SignerMessage =>
        (m.fid == fid && m.signer == s) && !(m.fid == fid && m.signer == s)) =
        fun _ => false := by
      funext m
      exact Bool.and_not_self _
    rw [this, List.filter_false]
  · intro hnone
    have h0 : st.messages.filter (fun m => m.fid == fid && m.signer == s) = [] :=
      hnone
    have hm : st.messages.filter (fun m => !(m.fid == fid && m.signer == s)) =
        st.messages := by
      rw [List.filter_eq_self]
      intro m hmem
      have h1 := List.filter_eq_nil_iff.mp h0 m hmem
      cases hb : (m.fid == fid && m.signer == s) with
      | false => rfl
      | true => exact absurd hb h1
    simp only [SignerStore.revokeMessagesBySigner, SignerStore.getAllBySigner] at h0 ⊢
    rw [hm, h0]
    simp

theorem revoke_deletes_all_by_signer_witness :
    ((SignerStore.mk [⟨[1], .signerAdd, 100, [1], [2], [3]⟩] [] [] 10).revokeMessagesBySigner
      [1] [9]).1 = SignerStore.mk [⟨[1], .signerAdd, 100, [1], [2], [3]⟩] [] [] 10 :=
  (revoke_deletes_all_by_signer
    (SignerStore.mk [⟨[1], .signerAdd, 100, [1], [2], [3]⟩] [] [] 10) [1] [9]).2.2.2
    (by decide)

/-! ## Claim C9: pruning -/

theorem bytesCompare_gt_swap (x : List Nat) : ∀ (y : List Nat),
    bytesCompare x y = .gt → bytesCompare y x = .lt := by
  induction x with
  | nil =>
      intro y h
      cases y <;> simp [bytesCompare] at h
  | cons a xs ih =>
      intro y h
      cases y with
      | nil => simp [bytesCompare]
      | cons b ys =>
          simp only [bytesCompare] at h ⊢
          by_cases h1 : a < b
          · simp [h1] at h
          · by_cases h2 : b < a
            · simp [h1, h2]
            · simp only [h1, h2, if_false] at h ⊢
              exact ih ys h

theorem bytesCompare_le_trans (x : List Nat) : ∀ (y z : List Nat),
    bytesCompare x y ≠ .gt → bytesCompare y z ≠ .gt → bytesCompare x z ≠ .gt := by
  induction x with
  | nil =>
      intro y z _ _
      cases z <;> simp [bytesCompare]
  | cons a xs ih =>
      intro y z h1 h2
      cases y with
      | nil => simp [bytesCompare] at h1
      | cons b ys =>
          cases z with
          | nil => simp [bytesCompare] at h2
          | cons c zs =>
              simp only [bytesCompare] at h1 h2 ⊢
              by_cases hab : a < b
              · by_cases hbc : b < c
                · simp [show a < c by omega]
                · by_cases hcb : c < b
                  · simp [hbc, hcb] at h2
                  · simp [show a < c by omega]
              · by_cases hba : b < a
                · simp [hab, hba] at h1
                · by_cases hbc : b < c
                  · simp [show a < c by omega]
                  · by_cases hcb : c < b
                    · simp [hbc, hcb] at h2
                    · have hac : ¬ a < c := by omega
                      have hca : ¬ c < a := by omega
                      simp only [hab, hba, if_false] at h1
                      simp only [hbc, hcb, if_false] at h2
                      simp only [hac, hca, if_false]
                      exact ih ys zs h1 h2

theorem msgLe_total (x y : SignerMessage) : msgLe x y ∨ msgLe y x := by
  unfold msgLe
  rcases Nat.lt_trichotomy x.timestamp y.timestamp with h | h | h
  · exact Or.inl (Or.inl h)
  · by_cases hb : bytesCompare x.hash y.hash = .gt
    · refine Or.inr (Or.inr ⟨h.symm, ?_⟩)
      rw [bytesCompare_gt_swap _ _ hb]
      simp
    · exact Or.inl (Or.inr ⟨h, hb⟩)
  · exact Or.inr (Or.inl h)

theorem msgLe_trans (x y z : SignerMessage) (h1 : msgLe x y) (h2 : msgLe y z) :
    msgLe x z := by
  unfold msgLe at h1 h2 ⊢
  rcases h1 with h1 | ⟨h1, h1b⟩
  · rcases h2 with h2 | ⟨h2, _⟩
    · exact Or.inl (by omega)
    · exact Or.inl (by omega)
  · rcases h2 with h2 | ⟨h2, h2b⟩
    · exact Or.inl (by omega)
    · exact Or.inr ⟨by omega, bytesCompare_le_trans _ _ _ h1b h2b⟩

instance : IsTotal SignerMessage msgLe := ⟨msgLe_total⟩

instance : IsTrans SignerMessage msgLe := ⟨msgLe_trans⟩

theorem sortByTsHash_perm (l : List SignerMessage) : (sortByTsHash l).Perm l :=
  List.perm_insertionSort msgLe l

theorem sortByTsHash_sorted (l : List SignerMessage) :
    (sortByTsHash l).Pairwise msgLe :=
  List.sorted_insertionSort msgLe l

/-- The i-th scenario SignerAdd: fid [7], timestamp 100 + i, hash [i],
signed by custody key [9], authorising delegate signer [i]. -/
def addMsg (i : Nat) : SignerMessage := ⟨[7], .signerAdd, 100 + i, [i], [9], [i]⟩

/-- The scenario store: pruneSizeLimit 3, five SignerAdds merged at
timestamps t+1..t+5. -/
def storeScenario : SignerStore :=
  ((((((SignerStore.init 3).merge (addMsg 1)).1.merge (addMsg 2)).1.merge
      (addMsg 3)).1.merge (addMsg 4)).1.merge (addMsg 5)).1

/-- C9: pruneMessages(fid) deletes stored messages of the fid earliest
first in ascending tsHash order until the per-fid count is at most the
pruneSizeLimit, emitting one pruneMessage per deletion; when the count
is already within the limit it deletes nothing and emits no events;
and in the concrete scenario (limit 3, five SignerAdds at t+1..t+5)
exactly the adds at t+1 and t+2 are pruned, their getSignerAdd fails
with not_found, and a later add survives. -/
theorem pruneMessages_earliest_first (st : SignerStore) (fid : List Nat) :
    ((st.pruneMessages fid).2 = .ok () ∧
      (st.pruneMessages fid).1.events =
        st.events ++ (pruneVictims st fid).map .pruneMessage) ∧
    ((pruneVictims st fid).Pairwise msgLe ∧
      ∀ v ∈ pruneVictims st fid,
        ∀ k ∈ (st.pruneMessages fid).1.messagesForFid fid, msgLe v k) ∧
    (st.messages.Nodup →
      ((st.pruneMessages fid).1.messagesForFid fid).length ≤ st.pruneSizeLimit) ∧
    ((st.messagesForFid fid).length ≤ st.pruneSizeLimit →
      (st.pruneMessages fid).1 = st) ∧
    (pruneVictims storeScenario [7] = [addMsg 1, addMsg 2] ∧
      (storeScenario.pruneMessages [7]).1.getSignerAdd [7] [1] =
        .error ⟨"not_found", "message not found"⟩ ∧
      (storeScenario.pruneMessages [7]).1.getSignerAdd [7] [2] =
        .error ⟨"not_found", "message not found"⟩ ∧
      (storeScenario.pruneMessages [7]).1.getSignerAdd [7] [3] = .ok (addMsg 3)) := by
  have hperm := sortByTsHash_perm (st.messagesForFid fid)
  have hsorted := sortByTsHash_sorted (st.messagesForFid fid)
  have hsplit : sortByTsHash (st.messagesForFid fid) =
      pruneVictims st fid ++
        (sortByTsHash (st.messagesForFid fid)).drop
          ((sortByTsHash (st.messagesForFid fid)).length - st.pruneSizeLimit) :=
    (List.take_append_drop _ _).symm
  have hpairsplit := List.pairwise_append.mp (hsplit ▸ hsorted)
  have hkept : ∀ k ∈ (st.pruneMessages fid).1.messagesForFid fid,
      k ∈ (sortByTsHash (st.messagesForFid fid)).drop
        ((sortByTsHash (st.messagesForFid fid)).length - st.pruneSizeLimit) := by
    intro k hk
    simp only [SignerStore.pruneMessages, SignerStore.messagesForFid,
      List.mem_filter, Bool.not_eq_true'] at hk
    obtain ⟨⟨hk1, hk2⟩, hk3⟩ := hk
    have hmemfid : k ∈ st.messagesForFid fid := by
      simp only [SignerStore.messagesForFid, List.mem_filter]
      exact ⟨hk1, hk3⟩
    have hmem : k ∈ sortByTsHash (st.messagesForFid fid) := hperm.mem_iff.mpr hmemfid
    rw [hsplit] at hmem
    rcases List.mem_append.mp hmem with hmem | hmem
    · exfalso
      have : (pruneVictims st fid).contains k = true := List.elem_iff.mpr hmem
      rw [this] at hk2
      cases hk2
    · exact hmem
  refine ⟨⟨rfl, rfl⟩, ⟨?_, ?_⟩, ?_, ?_, ?_, ?_, ?_, ?_⟩
  · exact hsorted.sublist (List.take_sublist _ _)
  · intro v hv k hk
    exact hpairsplit.2.2 v hv k (hkept k hk)
  · intro hnodup
    have hnd1 : (st.messagesForFid fid).Nodup := hnodup.filter _
    have hnds : (sortByTsHash (st.messagesForFid fid)).Nodup :=
      hperm.nodup_iff.mpr hnd1
    have hpm : (st.pruneMessages fid).1.messagesForFid fid =
        (st.messagesForFid fid).filter
          (fun m => !(pruneVictims st fid).contains m) := by
      simp only [SignerStore.pruneMessages, SignerStore.messagesForFid,
        List.filter_filter]
      congr 1
      funext m
      rw [Bool.and_comm]
    have hfperm : ((st.messagesForFid fid).filter
        (fun m => !(pruneVictims st fid).contains m)).length =
        ((sortByTsHash (st.messagesForFid fid)).filter
          (fun m => !(pruneVictims st fid).contains m)).length :=
      ((hperm.filter _).length_eq).symm
    rw [hsplit] at hnds
    obtain ⟨hnd_take, hnd_drop, hdisj⟩ := List.nodup_append.mp hnds
    have htake0 : (pruneVictims st fid).filter
        (fun m => !(pruneVictims st fid).contains m) = [] := by
      rw [List.filter_eq_nil_iff]
      intro m hm
      have hc : (pruneVictims st fid).contains m = true := List.elem_iff.mpr hm
      rw [hc]
      simp
    have hdropself : ((sortByTsHash (st.messagesForFid fid)).drop
        ((sortByTsHash (st.messagesForFid fid)).length - st.pruneSizeLimit)).filter
        (fun m => !(pruneVictims st fid).contains m) =
        (sortByTsHash (st.messagesForFid fid)).drop
          ((sortByTsHash (st.messagesForFid fid)).length - st.pruneSizeLimit) := by
      rw [List.filter_eq_self]
      intro m hm
      have : m ∉ pruneVictims st fid := fun hc => hdisj hc hm
      simp only [Bool.not_eq_true']
      rw [← Bool.not_eq_true]
      intro hc
      exact this (List.elem_iff.mp hc)
    rw [hpm, hfperm]
    conv_lhs => rw [hsplit]
    rw [List.filter_append, htake0, hdropself]
    simp only [List.nil_append, List.length_drop]
    omega
  · intro hle
    have hlen : (sortByTsHash (st.messagesForFid fid)).length =
        (st.messagesForFid fid).length := hperm.length_eq
    have hv : pruneVictims st fid = [] := by
      rw [pruneVictims]
      have : (sortByTsHash (st.messagesForFid fid)).length - st.pruneSizeLimit = 0 := by
        omega
      rw [this, List.take_zero]
    simp only [SignerStore.pruneMessages, hv]
    simp
  · decide
  · decide
  · decide
  · decide

theorem pruneMessages_earliest_first_witness :
    ((storeScenario.pruneMessages [7]).1.messagesForFid [7]).length ≤ 3 ∧
    (((SignerStore.init 3).merge (addMsg 1)).1.pruneMessages [7]).1 =
      ((SignerStore.init 3).merge (addMsg 1)).1 := by
  constructor
  · exact (pruneMessages_earliest_first storeScenario [7]).2.2.1 (by decide)
  · exact (pruneMessages_earliest_first _ [7]).2.2.2.1 (by decide)

/-! ## Claim C10: RPC getters validate arguments before lookup -/

/-- Modelled from the spec: the getUserData RPC handler (the RPC
server implementation is absent from the sources); per §7, a missing
fid is a bad_request.validation_failure reported before any store
lookup.  Records are (fid, dataType) keyed handles. -/
def getUserDataRpc (records : List (List Nat × Nat × Nat)) (fid : List Nat)
    (dataType : Nat) : Except HubError Nat :=
  if fid = [] then .error ⟨"bad_request.validation_failure", "fid is missing"⟩
  else
    match records.find? (fun r => r.1 == fid && r.2.1 == dataType) with
    | some r => .ok r.2.2
    | none => .error ⟨"not_found", "message not found"⟩

/-- Modelled from the spec: the getVerification RPC handler (the RPC
server implementation is absent from the sources); the fid argument is
validated first, then the address, before any store lookup.  Records
are (fid, address) keyed handles. -/
def getVerificationRpc (records : List (List Nat × List Nat × Nat))
    (fid addr : List Nat) : Except HubError Nat :=
  if fid = [] then .error ⟨"bad_request.validation_failure", "fid is missing"⟩
  else if addr = [] then
    .error ⟨"bad_request.validation_failure", "address is missing"⟩
  else
    match records.find? (fun r => r.1 == fid && r.2.1 == addr) with
    | some r => .ok r.2.2
    | none => .error ⟨"not_found", "message not found"⟩

/-- C10: getUserData and getVerification validate their arguments
before any lookup: an empty fid yields bad_request.validation_failure
"fid is missing", an empty address yields "address is missing", and in
those cases the result is never not_found, whatever the store holds. -/
theorem rpc_getters_validate_before_lookup :
    (∀ records dataType, getUserDataRpc records [] dataType =
      .error ⟨"bad_request.validation_failure", "fid is missing"⟩) ∧
    (∀ records addr, getVerificationRpc records [] addr =
      .error ⟨"bad_request.validation_failure", "fid is missing"⟩) ∧
    (∀ records fid, fid ≠ [] → getVerificationRpc records fid [] =
      .error ⟨"bad_request.validation_failure", "address is missing"⟩) ∧
    (∀ records dataType e, getUserDataRpc records [] dataType = .error e →
      e.code ≠ "not_found") ∧
    (∀ records fid addr e, (fid = [] ∨ addr = []) →
      getVerificationRpc records fid addr = .error e → e.code ≠ "not_found") := by
  refine ⟨?_, ?_, ?_, ?_, ?_⟩
  · intro records dataType
    simp [getUserDataRpc]
  · intro records addr
    simp [getVerificationRpc]
  · intro records fid hfid
    simp [getVerificationRpc, hfid]
  · intro records dataType e he
    simp [getUserDataRpc] at he
    simp [← he]
  · intro records fid addr e hempty he
    rcases hempty with h | h
    · subst h
      simp [getVerificationRpc] at he
      simp [← he]
    · subst h
      by_cases hfid : fid = []
      · simp [getVerificationRpc, hfid] at he
        simp [← he]
      · simp [getVerificationRpc, hfid] at he
        simp [← he]

theorem rpc_getters_validate_before_lookup_witness :
    getVerificationRpc [] [1] [] =
      .error ⟨"bad_request.validation_failure", "address is missing"⟩ :=
  rpc_getters_validate_before_lookup.2.2.1 [] [1] (by decide)
